import Mathlib

/-!
Verification of the extension package installer and version-reconciliation
engine (`install_extensions` and its helpers in `src-tauri/src/core/setup.rs`).

The Rust code is shallowly embedded: `serde_json::Value` becomes the `Json`
inductive, tar archives become lists of per-entry results (a `tar::Entry`
iterator can yield `Err` items), the filesystem under the extensions root
becomes an association list of extension directories, and JSON parsing of
byte content (`serde_json::from_str`, a library black box) becomes an
explicit `parse : String → Except String Json` parameter.  Machine `u64`
arithmetic is modelled with `Nat` plus an explicit overflow check where the
Rust code can overflow (`str::parse::<u64>`).
-/

set_option maxHeartbeats 1000000
set_option linter.unnecessarySeqFocus false

namespace Setup

/-- Model of `serde_json::Value`. -/
inductive Json where
  | null
  | bool (b : Bool)
  | num (n : Int)
  | str (s : String)
  | arr (elems : List Json)
  | obj (fields : List (String × Json))
deriving Repr

/-- Model of `Value::get(key)`: `Some` field value on objects, `None` otherwise. -/
def Json.get : Json → String → Option Json
  | .obj fields, k => (fields.find? (fun p => p.1 == k)).map (fun p => p.2)
  | _, _ => none

/-- Model of serde_json's `value[key]` indexing, which yields `Null` when the
key is absent or the value is not an object. -/
def Json.index (j : Json) (k : String) : Json :=
  (j.get k).getD .null

/-- Model of `Value::as_str`. -/
def Json.asStr : Json → Option String
  | .str s => some s
  | _ => none

/-! ### Version comparison (`parse_version`, `is_newer_version`) -/

/-- Model of Rust's `str::split(sep)` on a character list: every maximal
run between separators is a segment, so the empty string yields `[[]]`,
`"a."` yields `[['a'], []]`, and so on. -/
def splitChar (sep : Char) : List Char → List (List Char)
  | [] => [[]]
  | c :: rest =>
    match splitChar sep rest with
    | [] => [[]]
    | seg :: segs => if c = sep then [] :: seg :: segs else (c :: seg) :: segs

/-- The numeric value of a list of ASCII digit characters, most significant
first (the value `str::parse::<u64>` would compute before its range check). -/
def digitsVal (cs : List Char) : Nat :=
  cs.foldl (fun acc c => acc * 10 + (c.toNat - 48)) 0

/-- Model of `digits.parse::<u64>().unwrap_or(0)` applied to a run of ASCII
digits: an empty run fails to parse, and a value exceeding `u64::MAX`
fails to parse; both default to `0`. -/
def parse_u64_or_zero (cs : List Char) : Nat :=
  if cs.isEmpty then 0
  else if digitsVal cs < 2 ^ 64 then digitsVal cs else 0

/-- The leading run of ASCII digits of a segment
(`segment.chars().take_while(|ch| ch.is_ascii_digit())`). -/
def leadingDigits (cs : List Char) : List Char :=
  cs.takeWhile Char.isDigit

/-- Model of `parse_version`: split on `'.'`, take at most three segments,
keep each segment's leading ASCII-digit run parsed as `u64` (default `0`),
missing trailing segments stay `0`.  Returned as the three-element list
`[parts[0], parts[1], parts[2]]`. -/
def parse_version (version : String) : List Nat :=
  let segs := (splitChar '.' version.data).take 3
  (List.range 3).map (fun i =>
    match segs.get? i with
    | some seg => parse_u64_or_zero (leadingDigits seg)
    | none => 0)

/-- The `for idx in 0..3` comparison loop of `is_newer_version`: return
`bundled_part > installed_part` at the first differing index, `false` if all
indices agree. -/
def firstDiffGt : List Nat → List Nat → Bool
  | b :: bs, i :: is' => if b ≠ i then decide (b > i) else firstDiffGt bs is'
  | _, _ => false

/-- Model of `is_newer_version`. -/
def is_newer_version (bundled installed : String) : Bool :=
  firstDiffGt (parse_version bundled) (parse_version installed)

/-! ### Timestamp comparison (`is_newer_timestamp`) -/

/-- Model of `is_newer_timestamp` over `Option`al modification times
(`std::time::SystemTime` modelled as `Nat`). -/
def is_newer_timestamp : Option Nat → Option Nat → Bool
  | some bundled_time, some installed_time => decide (bundled_time > installed_time)
  | some _, none => true
  | _, _ => false

/-! ### The per-package install decision -/

/-- Model of the `should_install` expression of `install_extensions`
(setup.rs lines 127–132). -/
def should_install (replacements_disabled clean_up dir_exists : Bool)
    (bundled_version installed_version : String)
    (bundled_modified installed_modified : Option Nat) : Bool :=
  !replacements_disabled &&
    (clean_up || !dir_exists
      || is_newer_version bundled_version installed_version
      || bundled_version == ""
      || is_newer_timestamp bundled_modified installed_modified)

/-! ### Tar archives -/

/-- One tar entry: its path inside the archive, its byte content (as a
string), and the modification time recorded in its header (applied to the
file on unpack, since `tar::Archive` preserves mtimes by default). -/
structure TarEntry where
  path : String
  content : String
  mtime : Nat
deriving Repr, DecidableEq

/-- An archive entry stream: `Archive::entries()` yields a sequence of
per-entry results, each of which may be an error. -/
abbrev TarStream := List (Except String TarEntry)

/-- Model of `Path::components()` on the paths found in tar headers.
Rust's normalization splits on `/`, ignores empty segments (repeated or
trailing separators) and occurrences of `.` — except that a path beginning
with `.` keeps one leading `CurDir` component, and a path beginning with
`/` has a leading `RootDir` component.  `CurDir` and `RootDir` are
represented here by the head components `"."` and `"/"`: they can only
occur first, so they take part in the component count and are stripped by
`components[1..]`, but never appear in a written relative path. -/
def pathComponents (p : String) : List String :=
  let segs :=
    ((splitChar '/' p.data).map String.mk).filter
      (fun s => !(s == "") && !(s == "."))
  match p.data with
  | '/' :: _ => "/" :: segs
  | ['.'] => "." :: segs
  | '.' :: '/' :: _ => "." :: segs
  | _ => segs

/-- Model of `extract_extension_manifest`: scan the entry stream, ignoring
per-entry errors (`filter_map(|e| e.ok())`), for the first entry whose path
is exactly `package/package.json` or `package.json`; parse its content, or
report `none` when no entry matches. -/
def extract_extension_manifest (parse : String → Except String Json)
    (stream : TarStream) : Except String (Option Json) :=
  match (stream.filterMap (fun e => e.toOption)).find?
      (fun e => e.path == "package/package.json" || e.path == "package.json") with
  | some e =>
    match parse e.content with
    | .ok package_json => .ok (some package_json)
    | .error msg => .error msg
  | none => .ok none

/-! ### Archive unpacking (setup.rs lines 148–160) -/

/-- The filesystem actions of the extraction loop, relative to the target
extension directory: creating the parent directories of a target path, and
writing an entry's content to a target path.  Paths are component lists. -/
inductive UnpackAction where
  | mkdirParent (parents : List String)
  | write (rel : List String) (content : String) (mtime : Nat)
deriving Repr, DecidableEq

/-- The actions performed for one (successfully read) archive entry: with
strictly more than one path component, the first component is stripped, the
parent directories of the remainder are created and the content is written
there; otherwise the entry is skipped. -/
def unpack_entry (e : TarEntry) : List UnpackAction :=
  let components := pathComponents e.path
  if components.length > 1 then
    let relative_path := components.drop 1
    [.mkdirParent relative_path.dropLast, .write relative_path e.content e.mtime]
  else
    []

/-- The whole extraction loop: entries are processed in order; the first
per-entry error aborts extraction with that error (the `?` operator on
line 149). -/
def unpack_archive : TarStream → Except String (List UnpackAction)
  | [] => .ok []
  | .error msg :: _ => .error msg
  | .ok e :: rest =>
    match unpack_archive rest with
    | .ok acts => .ok (unpack_entry e ++ acts)
    | .error msg => .error msg

/-! ### Filesystem model for the extensions root

Only the state that the pass reads back is modelled: which extension
directories exist, and the files inside each (content plus the modification
time stamped on them by unpacking). -/

/-- A file installed inside an extension directory. -/
structure InstalledFile where
  content : String
  mtime : Nat
deriving Repr, DecidableEq

/-- An extension directory: relative slash-joined path ↦ file. -/
structure ExtDir where
  files : List (String × InstalledFile)
deriving Repr, DecidableEq

/-- The extensions root: directory name ↦ directory.  Presence in the list
is existence on disk. -/
abbrev FS := List (String × ExtDir)

/-- Association-list insert with overwrite (used both for directories and
for the name-keyed registry map: `HashMap::insert` semantics, where only the
final name-sorted output of the map matters, not iteration order). -/
def insertAssoc {α : Type} (m : List (String × α)) (k : String) (v : α) :
    List (String × α) :=
  m.filter (fun p => !(p.1 == k)) ++ [(k, v)]

/-- Association-list lookup. -/
def lookupAssoc {α : Type} (m : List (String × α)) (k : String) : Option α :=
  (m.find? (fun p => p.1 == k)).map (fun p => p.2)

/-- `extension_dir.exists()`. -/
def dirExists (fs : FS) (name : String) : Bool :=
  (lookupAssoc fs name).isSome

/-- Slash-join a non-empty relative component list. -/
def joinRel (rel : List String) : String :=
  String.intercalate "/" rel

/-- Apply one unpack action to an extension directory (directory creation
has no observable effect in this model; a write overwrites). -/
def applyAction (d : ExtDir) : UnpackAction → ExtDir
  | .mkdirParent _ => d
  | .write rel content mtime => ⟨insertAssoc d.files (joinRel rel) ⟨content, mtime⟩⟩

/-- Model of `read_installed_extension_version`: read
`<dir>/package.json`, parse it, extract `version` as a string; any failure
yields `none`. -/
def read_installed_extension_version (parse : String → Except String Json)
    (fs : FS) (name : String) : Option String :=
  (lookupAssoc fs name).bind fun d =>
    (lookupAssoc d.files "package.json").bind fun f =>
      match parse f.content with
      | .ok manifest => (manifest.get "version").bind Json.asStr
      | .error _ => none

/-- Model of `read_installed_extension_modified`: the modification time of
`<dir>/package.json`, if it exists. -/
def read_installed_extension_modified (fs : FS) (name : String) : Option Nat :=
  (lookupAssoc fs name).bind fun d =>
    (lookupAssoc d.files "package.json").map (fun f => f.mtime)

/-! ### The orchestration pass (`install_extensions`) -/

/-- Directory-level filesystem events of a pass, recorded for the
idempotence claims: removal of the whole extensions root (`clean_up`),
and removal/creation of a single extension directory. -/
inductive FsEvent where
  | removeAllExtensions
  | removeDir (name : String)
  | createDir (name : String)
deriving Repr, DecidableEq

/-- One bundled file found in the pre-install directory: whether its
extension is `tgz`, whether `File::open` succeeds on it, the archive entry
stream obtained by decoding it (the same stream for both the manifest scan
and the extraction pass, since both re-open the same file), and its own
filesystem modification time (`fs::metadata(&path).modified().ok()`). -/
structure BundledFile where
  isTgz : Bool
  openOk : Bool
  stream : TarStream
  modified : Option Nat

/-- Model of `Path::join` as used to build the record's `url`:
an absolute right-hand side replaces the base. -/
def pathJoin (base child : String) : String :=
  if child.startsWith "/" then child else base ++ "/" ++ child

/-- The registry record built for a processed package (the
`serde_json::json!` object of setup.rs lines 182–199). -/
def mkRecord (manifest : Json) (extension_name extension_origin : String) : Json :=
  let main_entry := ((manifest.index "main").asStr).getD "index.js"
  let url := pathJoin extension_origin main_entry
  .obj [("url", .str url),
        ("name", .str extension_name),
        ("origin", .str extension_origin),
        ("active", .bool true),
        ("description", .str (((manifest.index "description").asStr).getD "")),
        ("version", .str (((manifest.index "version").asStr).getD "")),
        ("productName", .str (((manifest.index "productName").asStr).getD ""))]

/-- Mutable state threaded through the per-package loop. -/
structure PassState where
  fs : FS
  byName : List (String × Json)
  events : List FsEvent

/-- Processing of one directory entry of the pre-install directory
(the body of the `for entry in fs::read_dir(..)` loop).  Every `?` in the
Rust body becomes an `.error` return aborting the pass. -/
def process_package (extRoot : String) (parse : String → Except String Json)
    (clean_up replacements_disabled : Bool)
    (st : PassState) (pkg : BundledFile) : Except String PassState :=
  if !pkg.isTgz then .ok st else
  if !pkg.openOk then .error "failed to open archive" else
  match extract_extension_manifest parse pkg.stream with
  | .error e => .error e
  | .ok none => .error "Manifest is None"
  | .ok (some manifest) =>
    match (manifest.index "name").asStr with
    | none => .error "package.json not found in archive"
    | some extension_name =>
      let extension_dir_path := extRoot ++ "/" ++ extension_name
      let installed_version :=
        (read_installed_extension_version parse st.fs extension_name).getD ""
      let bundled_version := ((manifest.index "version").asStr).getD ""
      let bundled_modified := pkg.modified
      let installed_modified := read_installed_extension_modified st.fs extension_name
      let dir_exists := dirExists st.fs extension_name
      let si := should_install replacements_disabled clean_up dir_exists
        bundled_version installed_version bundled_modified installed_modified
      if si then
        match unpack_archive pkg.stream with
        | .error e => .error e
        | .ok acts =>
          let events := st.events
            ++ (if dir_exists then [FsEvent.removeDir extension_name] else [])
            ++ [FsEvent.createDir extension_name]
          let d := acts.foldl applyAction ⟨[]⟩
          let fs := insertAssoc st.fs extension_name d
          .ok ⟨fs,
               insertAssoc st.byName extension_name
                 (mkRecord manifest extension_name extension_dir_path),
               events⟩
      else
        let extension_origin :=
          ((lookupAssoc st.byName extension_name).bind fun ext =>
            (ext.get "origin").bind Json.asStr).getD extension_dir_path
        .ok ⟨st.fs,
             insertAssoc st.byName extension_name
               (mkRecord manifest extension_name extension_origin),
             st.events⟩

/-- The whole per-package loop; the first `.error` aborts the pass. -/
def processAll (extRoot : String) (parse : String → Except String Json)
    (clean_up replacements_disabled : Bool) :
    PassState → List BundledFile → Except String PassState
  | st, [] => .ok st
  | st, p :: ps =>
    match process_package extRoot parse clean_up replacements_disabled st p with
    | .error e => .error e
    | .ok st' => processAll extRoot parse clean_up replacements_disabled st' ps

/-- Loading of the prior registry (setup.rs lines 60–67).  The nesting of
options follows the fallible steps: file exists? / `read_to_string`
succeeded? / content parsed as a JSON array?  A missing file, a failed read
(which substitutes `"[]"`), and a failed parse all produce the empty list. -/
def load_extensions_list : Option (Option (Option (List Json))) → List Json
  | some (some (some l)) => l
  | _ => []

/-- Seeding of the name-keyed map from the prior registry (setup.rs
lines 84–89): records without a string `name` are dropped; later records
overwrite earlier ones with the same name. -/
def seedByName (l : List Json) : List (String × Json) :=
  l.foldl (fun m ext =>
    match (ext.get "name").bind Json.asStr with
    | some n => insertAssoc m n ext
    | none => m) []

/-- Byte-order comparison of Rust `&str` (`Ord` on `str` is lexicographic
on bytes, which for valid UTF-8 coincides with lexicographic comparison of
code points). -/
def charListLe : List Char → List Char → Bool
  | [], _ => true
  | _ :: _, [] => false
  | a :: as', b :: bs' =>
    if a.toNat < b.toNat then true
    else if b.toNat < a.toNat then false
    else charListLe as' bs'

/-- `name_a.cmp(name_b)` is not `Greater`. -/
def strLe (s t : String) : Bool := charListLe s.data t.data

/-- The sort key of a registry record
(`a.get("name").and_then(as_str).unwrap_or("")`). -/
def recordName (j : Json) : String :=
  ((j.get "name").bind Json.asStr).getD ""

/-- The comparison passed to `sort_by`: name of `a` not greater than name
of `b`. -/
def recordLe (a b : Json) : Prop := strLe (recordName a) (recordName b) = true

instance : DecidableRel recordLe := fun a b =>
  instDecidableEqBool (strLe (recordName a) (recordName b)) true

/-- Serialization of the registry map (setup.rs lines 205–211): collect the
values and sort them by name ascending.  `Vec::sort_by` is a stable sort and
record names are pairwise distinct, so any stable sort models it and any
enumeration order of the hash map yields the same result. -/
def serializeRegistry (m : List (String × Json)) : List Json :=
  (m.map (fun p => p.2)).insertionSort recordLe

/-- The inputs of one pass that the environment supplies. -/
structure PassInput where
  force : Bool
  is_clean_env : Bool
  replacements_disabled : Bool
  regFile : Option (Option (Option (List Json)))
  preInstall : List BundledFile

/-- Model of `install_extensions`: resolve the flags, load the prior
registry, optionally clean the extensions root, seed the name-keyed map,
process every bundled file, and serialize the merged registry.  The result
is the written `extensions.json` content (as a JSON array), the final
filesystem state, and the directory-level event trace. -/
def install_extensions (extRoot : String) (parse : String → Except String Json)
    (inp : PassInput) (fs0 : FS) :
    Except String (List Json × FS × List FsEvent) :=
  let clean_up := inp.force || inp.is_clean_env
  let loaded := load_extensions_list inp.regFile
  let init : PassState :=
    if clean_up then ⟨[], [], [FsEvent.removeAllExtensions]⟩
    else ⟨fs0, seedByName loaded, []⟩
  match processAll extRoot parse clean_up inp.replacements_disabled init inp.preInstall with
  | .error e => .error e
  | .ok st => .ok (serializeRegistry st.byName, st.fs, st.events)

/-- The name a bundled package contributes to the registry, when its
manifest scan succeeds and yields a usable `name`. -/
def package_name (parse : String → Except String Json) (p : BundledFile) :
    Option String :=
  match extract_extension_manifest parse p.stream with
  | .ok (some m) => (m.index "name").asStr
  | _ => none

/-- The manifest a bundled package's scan yields, when it succeeds. -/
def package_manifest (parse : String → Except String Json) (p : BundledFile) :
    Option Json :=
  match extract_extension_manifest parse p.stream with
  | .ok (some m) => some m
  | _ => none

theorem extract_of_package_manifest (parse : String → Except String Json)
    (p : BundledFile) (m : Json) (h : package_manifest parse p = some m) :
    extract_extension_manifest parse p.stream = .ok (some m) := by
  rw [package_manifest] at h
  cases hx : extract_extension_manifest parse p.stream with
  | error e => rw [hx] at h; cases h
  | ok mo =>
    cases mo with
    | none => rw [hx] at h; cases h
    | some m' =>
      rw [hx] at h
      simp only at h
      cases h
      rfl

theorem package_name_of_manifest (parse : String → Except String Json)
    (p : BundledFile) (m : Json) (n : String)
    (hm : package_manifest parse p = some m)
    (hn : (m.index "name").asStr = some n) :
    package_name parse p = some n := by
  have hx := extract_of_package_manifest parse p m hm
  simp [package_name, hx, hn]

/-- A package-level recoverable failure in the sense of the spec: the
archive cannot be opened, or the manifest scan fails, finds nothing, or
finds a manifest without a usable string `name`. -/
def package_fails (parse : String → Except String Json) (p : BundledFile) : Prop :=
  p.openOk = false ∨
  (∃ msg, extract_extension_manifest parse p.stream = .error msg) ∨
  extract_extension_manifest parse p.stream = .ok none ∨
  (∃ m, extract_extension_manifest parse p.stream = .ok (some m) ∧
    (m.index "name").asStr = none)

/-! ### Association-list lemmas -/

theorem find?_filter_of_imp {α : Type} (l : List α) (p q : α → Bool)
    (h : ∀ x, p x = true → q x = true) :
    (l.filter q).find? p = l.find? p := by
  induction l with
  | nil => rfl
  | cons a l ih =>
    by_cases hpa : p a = true
    · have hqa := h a hpa
      rw [List.filter_cons_of_pos hqa, List.find?_cons_of_pos _ hpa,
        List.find?_cons_of_pos _ hpa]
    · by_cases hqa : q a = true
      · rw [List.filter_cons_of_pos hqa,
          List.find?_cons_of_neg _ hpa,
          List.find?_cons_of_neg _ hpa, ih]
      · rw [List.filter_cons_of_neg (by simpa using hqa),
          List.find?_cons_of_neg _ hpa, ih]

theorem find?_filter_ne_none {α : Type} (m : List (String × α)) (k : String) :
    ((m.filter (fun p => !(p.1 == k))).find? (fun p => p.1 == k)) = none := by
  rw [List.find?_eq_none]
  intro x hx
  have hq := List.of_mem_filter hx
  simp only [Bool.not_eq_true'] at hq
  simp [hq]

theorem lookupAssoc_insertAssoc_self {α : Type} (m : List (String × α))
    (k : String) (v : α) : lookupAssoc (insertAssoc m k v) k = some v := by
  rw [lookupAssoc, insertAssoc, List.find?_append, find?_filter_ne_none]
  simp

theorem lookupAssoc_insertAssoc_ne {α : Type} (m : List (String × α))
    (k k' : String) (v : α) (h : k' ≠ k) :
    lookupAssoc (insertAssoc m k v) k' = lookupAssoc m k' := by
  rw [lookupAssoc, insertAssoc, List.find?_append]
  rw [find?_filter_of_imp]
  · rw [lookupAssoc]
    have hne : (k == k') = false := by
      simp only [beq_eq_false_iff_ne]
      exact fun hk => h hk.symm
    cases hf : m.find? (fun p => p.1 == k') with
    | none => simp [List.find?_cons, hne]
    | some x => simp
  · intro x hx
    simp only [beq_iff_eq] at hx ⊢
    simp [hx, h]

theorem mem_insertAssoc {α : Type} (m : List (String × α)) (k : String) (v : α)
    (kv : String × α) (h : kv ∈ insertAssoc m k v) : kv ∈ m ∨ kv = (k, v) := by
  rw [insertAssoc] at h
  rcases List.mem_append.mp h with h | h
  · exact Or.inl (List.mem_of_mem_filter h)
  · simp only [List.mem_singleton] at h
    exact Or.inr h

theorem keys_nodup_insertAssoc {α : Type} (m : List (String × α)) (k : String)
    (v : α) (h : (m.map Prod.fst).Nodup) :
    ((insertAssoc m k v).map Prod.fst).Nodup := by
  rw [insertAssoc, List.map_append]
  apply List.Nodup.append
  · exact ((List.filter_sublist m).map Prod.fst).nodup h
  · simp
  · intro a ha hb
    simp only [List.map_cons, List.map_nil, List.mem_singleton] at hb
    subst hb
    obtain ⟨q, hq, hq1⟩ := List.mem_map.mp ha
    have := List.of_mem_filter hq
    simp only [Bool.not_eq_true'] at this
    rw [hq1] at this
    simp at this

theorem mem_of_lookupAssoc {α : Type} (m : List (String × α)) (k : String)
    (v : α) (h : lookupAssoc m k = some v) : (k, v) ∈ m := by
  rw [lookupAssoc] at h
  cases hf : m.find? (fun p => p.1 == k) with
  | none => rw [hf] at h; cases h
  | some kv =>
    rw [hf] at h
    have hmem := List.mem_of_find?_eq_some hf
    have hk := List.find?_some hf
    simp only [beq_iff_eq] at hk
    simp only [Option.map_some'] at h
    cases h
    rcases kv with ⟨k1, v1⟩
    cases hk
    exact hmem

theorem lookupAssoc_of_mem_nodup {α : Type} (m : List (String × α)) (k : String)
    (v : α) (hmem : (k, v) ∈ m) (h : (m.map Prod.fst).Nodup) :
    lookupAssoc m k = some v := by
  induction m with
  | nil => cases hmem
  | cons q rest ih =>
    have hnd : q.1 ∉ rest.map Prod.fst ∧ (rest.map Prod.fst).Nodup := by
      rw [List.map_cons, List.nodup_cons] at h
      exact h
    rcases List.mem_cons.mp hmem with heq | hmem'
    · subst heq
      simp [lookupAssoc, List.find?_cons]
    · have hk : (q.1 == k) = false := by
        simp only [beq_eq_false_iff_ne]
        intro hq1
        apply hnd.1
        rw [hq1]
        exact List.mem_map.mpr ⟨(k, v), hmem', rfl⟩
      rw [lookupAssoc]
      simp only [List.find?_cons, hk]
      exact ih hmem' hnd.2

/-! ### Structural lemmas about one loop iteration -/

theorem process_package_byName (extRoot : String)
    (parse : String → Except String Json) (clean repl : Bool)
    (st : PassState) (p : BundledFile) (st' : PassState)
    (h : process_package extRoot parse clean repl st p = .ok st') :
    (st' = st) ∨
    ∃ n manifest origin, package_manifest parse p = some manifest ∧
      (manifest.index "name").asStr = some n ∧ p.isTgz = true ∧
      st'.byName = insertAssoc st.byName n (mkRecord manifest n origin) := by
  cases ht : p.isTgz with
  | false =>
    simp only [process_package, ht, Bool.not_false, if_true, Except.ok.injEq] at h
    exact Or.inl h.symm
  | true =>
    cases ho : p.openOk with
    | false => simp [process_package, ht, ho] at h
    | true =>
      cases hm : extract_extension_manifest parse p.stream with
      | error e => simp [process_package, ht, ho, hm] at h
      | ok mo =>
        cases mo with
        | none => simp [process_package, ht, ho, hm] at h
        | some manifest =>
          cases hn : (manifest.index "name").asStr with
          | none => simp [process_package, ht, ho, hm, hn] at h
          | some n =>
            have hpm : package_manifest parse p = some manifest := by
              simp [package_manifest, hm]
            refine Or.inr ⟨n, manifest, ?_⟩
            simp only [process_package, ht, ho, hm, hn, Bool.not_true,
              Bool.false_eq_true, if_false] at h
            split at h
            · cases hu : unpack_archive p.stream with
              | error e => simp only [hu] at h; cases h
              | ok acts =>
                simp only [hu] at h
                cases h
                exact ⟨_, hpm, hn, rfl, rfl⟩
            · cases h
              exact ⟨_, hpm, hn, rfl, rfl⟩

theorem process_package_error_of_fails (extRoot : String)
    (parse : String → Except String Json) (clean repl : Bool)
    (st : PassState) (p : BundledFile)
    (htgz : p.isTgz = true) (hf : package_fails parse p) :
    ∃ msg, process_package extRoot parse clean repl st p = .error msg := by
  cases ho : p.openOk with
  | false =>
    exact ⟨"failed to open archive", by simp [process_package, htgz, ho]⟩
  | true =>
    rcases hf with h | ⟨msg, h⟩ | h | ⟨m, h, hn⟩
    · rw [ho] at h; cases h
    · exact ⟨msg, by simp [process_package, htgz, ho, h]⟩
    · exact ⟨"Manifest is None", by simp [process_package, htgz, ho, h]⟩
    · exact ⟨"package.json not found in archive",
        by simp [process_package, htgz, ho, h, hn]⟩

theorem processAll_error_of_mem_fails (extRoot : String)
    (parse : String → Except String Json) (clean repl : Bool) :
    ∀ (l : List BundledFile) (st : PassState) (p : BundledFile),
      p ∈ l → p.isTgz = true → package_fails parse p →
      ∃ msg, processAll extRoot parse clean repl st l = .error msg := by
  intro l
  induction l with
  | nil => intro st p hp; cases hp
  | cons q rest ih =>
    intro st p hp htgz hf
    rcases List.mem_cons.mp hp with heq | hmem
    · subst heq
      obtain ⟨msg, hmsg⟩ :=
        process_package_error_of_fails extRoot parse clean repl st p htgz hf
      exact ⟨msg, by simp [processAll, hmsg]⟩
    · cases hq : process_package extRoot parse clean repl st q with
      | error e => exact ⟨e, by simp [processAll, hq]⟩
      | ok st' =>
        obtain ⟨msg, hmsg⟩ := ih st' p hmem htgz hf
        exact ⟨msg, by simp [processAll, hq, hmsg]⟩

/-- Provenance of the name-keyed map across the loop: every binding either
was present before, or is the freshly built record of some processed
package whose manifest name is the binding's key. -/
theorem processAll_byName_from (extRoot : String)
    (parse : String → Except String Json) (clean repl : Bool)
    (ps : List BundledFile) :
    ∀ (st st' : PassState),
      processAll extRoot parse clean repl st ps = .ok st' →
      ∀ kv ∈ st'.byName, kv ∈ st.byName ∨
        ∃ p ∈ ps, p.isTgz = true ∧ package_name parse p = some kv.1 ∧
          ∃ manifest origin, kv.2 = mkRecord manifest kv.1 origin := by
  induction ps with
  | nil =>
    intro st st' h kv hkv
    simp only [processAll] at h
    cases h
    exact Or.inl hkv
  | cons p ps ih =>
    intro st st' h kv hkv
    simp only [processAll] at h
    cases hq : process_package extRoot parse clean repl st p with
    | error e => rw [hq] at h; cases h
    | ok st1 =>
      rw [hq] at h
      rcases ih st1 st' h kv hkv with hin | ⟨q, hqmem, hqt, hpn, m, o, hrec⟩
      · rcases process_package_byName extRoot parse clean repl st p st1 hq with
          heq | ⟨n, manifest, origin, hman, hname, htgz, hby⟩
        · rw [heq] at hin
          exact Or.inl hin
        · rw [hby] at hin
          rcases mem_insertAssoc _ _ _ _ hin with hin' | heq
          · exact Or.inl hin'
          · subst heq
            exact Or.inr ⟨p, List.mem_cons_self p ps, htgz,
              package_name_of_manifest parse p manifest n hman hname,
              manifest, origin, rfl⟩
      · exact Or.inr ⟨q, List.mem_cons_of_mem p hqmem, hqt, hpn, m, o, hrec⟩

theorem seedByName_go_lookup (n : String) (r : Json)
    (hname : (r.get "name").bind Json.asStr = some n) :
    ∀ (l : List Json) (acc : List (String × Json)),
      (∀ r' ∈ l, (r'.get "name").bind Json.asStr = some n → r' = r) →
      (lookupAssoc acc n = some r ∨ r ∈ l) →
      lookupAssoc
        (l.foldl (fun m ext =>
          match (ext.get "name").bind Json.asStr with
          | some k => insertAssoc m k ext
          | none => m) acc) n = some r := by
  intro l
  induction l with
  | nil =>
    intro acc _ hstart
    rcases hstart with h | h
    · simpa using h
    · cases h
  | cons j l ih =>
    intro acc huniq hstart
    rw [List.foldl_cons]
    apply ih
    · intro r' h1 h2
      exact huniq r' (List.mem_cons_of_mem _ h1) h2
    · cases hj : (j.get "name").bind Json.asStr with
      | none =>
        rcases hstart with h | h
        · exact Or.inl (by simpa [hj] using h)
        · rcases List.mem_cons.mp h with heq | hmem
          · subst heq
            rw [hname] at hj
            cases hj
          · exact Or.inr hmem
      | some k =>
        by_cases hk : k = n
        · subst hk
          have hj' : j = r := huniq j (List.mem_cons_self j l) hj
          subst hj'
          left
          simp only [hj]
          exact lookupAssoc_insertAssoc_self acc k j
        · rcases hstart with h | h
          · left
            simp only [hj]
            rw [lookupAssoc_insertAssoc_ne _ _ _ _ (fun hh => hk hh.symm)]
            exact h
          · rcases List.mem_cons.mp h with heq | hmem
            · subst heq
              rw [hname] at hj
              injection hj with h2
              exact absurd h2.symm hk
            · exact Or.inr hmem

theorem seedByName_lookup_unique (l : List Json) (r : Json) (n : String)
    (hr : r ∈ l) (hname : (r.get "name").bind Json.asStr = some n)
    (huniq : ∀ r' ∈ l, (r'.get "name").bind Json.asStr = some n → r' = r) :
    lookupAssoc (seedByName l) n = some r :=
  seedByName_go_lookup n r hname l [] huniq (Or.inr hr)

/-- A name that no processed package carries keeps its binding across the
whole loop. -/
theorem processAll_lookup_preserved (extRoot : String)
    (parse : String → Except String Json) (clean repl : Bool) (n : String) :
    ∀ (ps : List BundledFile) (st st' : PassState),
      (∀ p ∈ ps, p.isTgz = true → package_name parse p ≠ some n) →
      processAll extRoot parse clean repl st ps = .ok st' →
      lookupAssoc st'.byName n = lookupAssoc st.byName n := by
  intro ps
  induction ps with
  | nil =>
    intro st st' _ h
    simp only [processAll] at h
    cases h
    rfl
  | cons p ps ih =>
    intro st st' hnone h
    simp only [processAll] at h
    cases hq : process_package extRoot parse clean repl st p with
    | error e => rw [hq] at h; cases h
    | ok st1 =>
      rw [hq] at h
      have htail := ih st1 st' (fun q hq' => hnone q (List.mem_cons_of_mem _ hq')) h
      rcases process_package_byName extRoot parse clean repl st p st1 hq with
        heq | ⟨k, m, o, hman, hname, htgz, hby⟩
      · rw [htail, heq]
      · rw [htail, hby]
        apply lookupAssoc_insertAssoc_ne
        intro hkn
        apply hnone p (List.mem_cons_self p ps) htgz
        rw [← hkn] at hname
        exact package_name_of_manifest parse p m n hman hname

/-! ### Order facts about the byte-order comparison -/

theorem charListLe_trans : ∀ (as' bs cs : List Char),
    charListLe as' bs = true → charListLe bs cs = true →
    charListLe as' cs = true := by
  intro as'
  induction as' with
  | nil => intro bs cs _ _; rfl
  | cons a as' ih =>
    intro bs cs h1 h2
    cases bs with
    | nil => simp [charListLe] at h1
    | cons b bs =>
      cases cs with
      | nil => simp [charListLe] at h2
      | cons c cs =>
        simp only [charListLe] at h1 h2 ⊢
        by_cases hab : a.toNat < b.toNat
        · by_cases hbc : b.toNat < c.toNat
          · rw [if_pos (show a.toNat < c.toNat by omega)]
          · by_cases hcb : c.toNat < b.toNat
            · rw [if_neg hbc, if_pos hcb] at h2
              cases h2
            · rw [if_pos (show a.toNat < c.toNat by omega)]
        · by_cases hba : b.toNat < a.toNat
          · rw [if_neg hab, if_pos hba] at h1
            cases h1
          · rw [if_neg hab, if_neg hba] at h1
            by_cases hbc : b.toNat < c.toNat
            · rw [if_pos (show a.toNat < c.toNat by omega)]
            · by_cases hcb : c.toNat < b.toNat
              · rw [if_neg hbc, if_pos hcb] at h2
                cases h2
              · rw [if_neg hbc, if_neg hcb] at h2
                rw [if_neg (show ¬a.toNat < c.toNat by omega),
                  if_neg (show ¬c.toNat < a.toNat by omega)]
                exact ih bs cs h1 h2

theorem charListLe_total : ∀ (as' bs : List Char),
    charListLe as' bs = true ∨ charListLe bs as' = true := by
  intro as'
  induction as' with
  | nil => intro bs; exact Or.inl rfl
  | cons a as' ih =>
    intro bs
    cases bs with
    | nil => exact Or.inr rfl
    | cons b bs =>
      by_cases hab : a.toNat < b.toNat
      · exact Or.inl (by simp [charListLe, hab])
      · by_cases hba : b.toNat < a.toNat
        · exact Or.inr (by simp [charListLe, hba])
        · rcases ih bs with h | h
          · exact Or.inl (by simp [charListLe, hab, hba, h])
          · exact Or.inr (by simp [charListLe, hba, hab, h])

theorem charListLe_antisymm : ∀ (as' bs : List Char),
    charListLe as' bs = true → charListLe bs as' = true → as' = bs := by
  intro as'
  induction as' with
  | nil =>
    intro bs h1 h2
    cases bs with
    | nil => rfl
    | cons b bs => simp [charListLe] at h2
  | cons a as' ih =>
    intro bs h1 h2
    cases bs with
    | nil => simp [charListLe] at h1
    | cons b bs =>
      by_cases hab : a.toNat < b.toNat
      · simp [charListLe, hab, show ¬b.toNat < a.toNat by omega] at h2
      · by_cases hba : b.toNat < a.toNat
        · simp [charListLe, hba, hab] at h1
        · have hch : a = b := by
            have htn : a.toNat = b.toNat := by omega
            have := congrArg Char.ofNat htn
            rwa [Char.ofNat_toNat, Char.ofNat_toNat] at this
          subst hch
          simp only [charListLe, if_neg hab, if_neg hba] at h1 h2
          rw [ih bs h1 h2]

theorem strLe_antisymm (s t : String) (h1 : strLe s t = true)
    (h2 : strLe t s = true) : s = t :=
  String.ext (charListLe_antisymm s.data t.data h1 h2)

instance : IsTrans Json recordLe :=
  ⟨fun _ _ _ h1 h2 => charListLe_trans _ _ _ h1 h2⟩

instance : IsTotal Json recordLe :=
  ⟨fun a b => charListLe_total (recordName a).data (recordName b).data⟩

/-! ### Invariants of the name-keyed registry map -/

/-- Every binding's record carries the binding's key as its string name. -/
def NameKeyed (m : List (String × Json)) : Prop :=
  ∀ kv ∈ m, ((kv.2.get "name").bind Json.asStr) = some kv.1

theorem get_mkRecord_name (m : Json) (n o : String) :
    ((mkRecord m n o).get "name").bind Json.asStr = some n := rfl

theorem get_mkRecord_origin (m : Json) (n o : String) :
    ((mkRecord m n o).get "origin").bind Json.asStr = some o := rfl

/-- The seven fields every freshly built registry record carries. -/
def hasRegistryFields (j : Json) : Prop :=
  (j.get "url").isSome = true ∧ (j.get "name").isSome = true ∧
  (j.get "origin").isSome = true ∧ (j.get "active").isSome = true ∧
  (j.get "description").isSome = true ∧ (j.get "version").isSome = true ∧
  (j.get "productName").isSome = true

theorem mkRecord_hasRegistryFields (m : Json) (n o : String) :
    hasRegistryFields (mkRecord m n o) :=
  ⟨rfl, rfl, rfl, rfl, rfl, rfl, rfl⟩

theorem nameKeyed_insertAssoc (m : List (String × Json)) (k : String) (v : Json)
    (hm : NameKeyed m) (hv : (v.get "name").bind Json.asStr = some k) :
    NameKeyed (insertAssoc m k v) := by
  intro kv hkv
  rcases mem_insertAssoc _ _ _ _ hkv with h | h
  · exact hm kv h
  · subst h; simpa using hv

theorem seedByName_nameKeyed (l : List Json) : NameKeyed (seedByName l) := by
  suffices h : ∀ (l : List Json) (acc : List (String × Json)), NameKeyed acc →
      NameKeyed (l.foldl (fun m ext =>
        match (ext.get "name").bind Json.asStr with
        | some k => insertAssoc m k ext
        | none => m) acc) by
    exact h l [] (fun kv hkv => absurd hkv (List.not_mem_nil kv))
  intro l
  induction l with
  | nil => intro acc h; exact h
  | cons j l ih =>
    intro acc h
    rw [List.foldl_cons]
    apply ih
    cases hj : (j.get "name").bind Json.asStr with
    | none => simpa [hj] using h
    | some k =>
      simp only [hj]
      exact nameKeyed_insertAssoc acc k j h hj

theorem seedByName_keys_nodup (l : List Json) :
    ((seedByName l).map Prod.fst).Nodup := by
  suffices h : ∀ (l : List Json) (acc : List (String × Json)),
      (acc.map Prod.fst).Nodup →
      ((l.foldl (fun m ext =>
        match (ext.get "name").bind Json.asStr with
        | some k => insertAssoc m k ext
        | none => m) acc).map Prod.fst).Nodup by
    exact h l [] List.nodup_nil
  intro l
  induction l with
  | nil => intro acc h; exact h
  | cons j l ih =>
    intro acc h
    rw [List.foldl_cons]
    apply ih
    cases hj : (j.get "name").bind Json.asStr with
    | none => simpa [hj] using h
    | some k =>
      simp only [hj]
      exact keys_nodup_insertAssoc acc k j h

theorem seedByName_values_mem (l : List Json) :
    ∀ kv ∈ seedByName l, kv.2 ∈ l := by
  suffices h : ∀ (l : List Json) (acc : List (String × Json)) kv,
      kv ∈ l.foldl (fun m ext =>
        match (ext.get "name").bind Json.asStr with
        | some k => insertAssoc m k ext
        | none => m) acc → kv ∈ acc ∨ kv.2 ∈ l by
    intro kv hkv
    rcases h l [] kv hkv with h' | h'
    · exact absurd h' (List.not_mem_nil kv)
    · exact h'
  intro l
  induction l with
  | nil => intro acc kv h; exact Or.inl h
  | cons j l ih =>
    intro acc kv h
    rw [List.foldl_cons] at h
    rcases ih _ kv h with h' | h'
    · cases hj : (j.get "name").bind Json.asStr with
      | none =>
        rw [hj] at h'
        exact Or.inl h'
      | some k =>
        rw [hj] at h'
        rcases mem_insertAssoc _ _ _ _ h' with h'' | h''
        · exact Or.inl h''
        · subst h''
          exact Or.inr (List.mem_cons_self j l)
    · exact Or.inr (List.mem_cons_of_mem j h')

theorem processAll_nameKeyed_nodup (extRoot : String)
    (parse : String → Except String Json) (clean repl : Bool) :
    ∀ (ps : List BundledFile) (st st' : PassState),
      processAll extRoot parse clean repl st ps = .ok st' →
      NameKeyed st.byName → (st.byName.map Prod.fst).Nodup →
      NameKeyed st'.byName ∧ (st'.byName.map Prod.fst).Nodup := by
  intro ps
  induction ps with
  | nil =>
    intro st st' h hk hn
    simp only [processAll] at h
    cases h
    exact ⟨hk, hn⟩
  | cons p ps ih =>
    intro st st' h hk hn
    simp only [processAll] at h
    cases hq : process_package extRoot parse clean repl st p with
    | error e => rw [hq] at h; cases h
    | ok st1 =>
      rw [hq] at h
      rcases process_package_byName extRoot parse clean repl st p st1 hq with
        heq | ⟨n, m, o, hman, hname, ht, hby⟩
      · exact ih st1 st' h (by rw [heq]; exact hk) (by rw [heq]; exact hn)
      · apply ih st1 st' h
        · rw [hby]
          exact nameKeyed_insertAssoc _ _ _ hk (get_mkRecord_name m n o)
        · rw [hby]
          exact keys_nodup_insertAssoc _ _ _ hn

/-- The values of a name-keyed map with distinct keys have pairwise
distinct names. -/
theorem values_pairwise_ne (m : List (String × Json))
    (hkeys : (m.map Prod.fst).Nodup) (hnk : NameKeyed m) :
    (m.map (fun p => p.2)).Pairwise (fun a b => recordName a ≠ recordName b) := by
  rw [List.pairwise_map]
  have hp : m.Pairwise (fun p q => p.1 ≠ q.1) :=
    (List.pairwise_map).mp hkeys
  refine hp.imp_of_mem ?_
  intro p q hpm hqm hne
  have h1 : recordName p.2 = p.1 := by
    rw [recordName, hnk p hpm]
    rfl
  have h2 : recordName q.2 = q.1 := by
    rw [recordName, hnk q hqm]
    rfl
  rw [h1, h2]
  exact hne

/-- A name-keyed map with distinct keys serializes to a strictly
name-ascending list. -/
theorem serializeRegistry_strict (m : List (String × Json))
    (hk : NameKeyed m) (hn : (m.map Prod.fst).Nodup) :
    (serializeRegistry m).Pairwise (fun a b =>
      strLe (recordName a) (recordName b) = true ∧
      recordName a ≠ recordName b) := by
  have hsorted : List.Sorted recordLe (serializeRegistry m) :=
    List.sorted_insertionSort recordLe _
  have hne : (serializeRegistry m).Pairwise
      (fun a b => recordName a ≠ recordName b) := by
    refine ((List.perm_insertionSort recordLe _).pairwise_iff ?_).mpr
      (values_pairwise_ne _ hn hk)
    exact fun hxy => hxy.symm
  exact hsorted.and hne

/-- The serialized registry of a completed loop is strictly ascending by
record name whenever the loop started from a name-keyed, duplicate-free
map. -/
theorem serialize_shape (extRoot : String) (parse : String → Except String Json)
    (clean repl : Bool) (init : PassState) (ps : List BundledFile)
    (st : PassState) (hp : processAll extRoot parse clean repl init ps = .ok st)
    (hnk : NameKeyed init.byName) (hnd : (init.byName.map Prod.fst).Nodup) :
    (serializeRegistry st.byName).Pairwise (fun a b =>
      strLe (recordName a) (recordName b) = true ∧
      recordName a ≠ recordName b) := by
  obtain ⟨hk, hn⟩ :=
    processAll_nameKeyed_nodup extRoot parse clean repl ps init st hp hnk hnd
  exact serializeRegistry_strict st.byName hk hn

/-! ### Lemmas for the two-run (idempotence) analysis -/

instance : IsAntisymm Json (fun a b =>
    strLe (recordName a) (recordName b) = true ∧
    recordName a ≠ recordName b) :=
  ⟨fun _ _ h1 h2 => absurd (strLe_antisymm _ _ h1.1 h2.1) h1.2⟩

/-- A name carried by no record of the list is absent from the seeded map. -/
theorem seedByName_lookup_none (l : List Json) (n : String)
    (h : ∀ r ∈ l, ((r.get "name").bind Json.asStr) ≠ some n) :
    lookupAssoc (seedByName l) n = none := by
  suffices hgen : ∀ (l : List Json) (acc : List (String × Json)),
      (∀ r ∈ l, ((r.get "name").bind Json.asStr) ≠ some n) →
      lookupAssoc acc n = none →
      lookupAssoc (l.foldl (fun m ext =>
        match (ext.get "name").bind Json.asStr with
        | some k => insertAssoc m k ext
        | none => m) acc) n = none by
    exact hgen l [] h rfl
  intro l
  induction l with
  | nil => intro acc _ h0; exact h0
  | cons j l ih =>
    intro acc hl h0
    rw [List.foldl_cons]
    apply ih _ (fun r hr => hl r (List.mem_cons_of_mem _ hr))
    cases hj : (j.get "name").bind Json.asStr with
    | none => simpa [hj] using h0
    | some k =>
      simp only [hj]
      rw [lookupAssoc_insertAssoc_ne]
      · exact h0
      · intro hnk
        exact hl j (List.mem_cons_self j l) (by rw [hj, ← hnk])

/-- Re-seeding a name-keyed, duplicate-free map from its own serialized
registry reproduces its lookups. -/
theorem seedByName_serialize_lookup (m : List (String × Json))
    (hnk : NameKeyed m) (hnd : (m.map Prod.fst).Nodup) (n : String) :
    lookupAssoc (seedByName (serializeRegistry m)) n = lookupAssoc m n := by
  cases hl : lookupAssoc m n with
  | some v =>
    have hmem : (n, v) ∈ m := mem_of_lookupAssoc _ _ _ hl
    have hvmem : v ∈ serializeRegistry m :=
      (List.mem_insertionSort recordLe).mpr (List.mem_map.mpr ⟨(n, v), hmem, rfl⟩)
    have hvname : ((v.get "name").bind Json.asStr) = some n := hnk (n, v) hmem
    apply seedByName_lookup_unique _ v n hvmem hvname
    intro r' hr' hr'name
    have hr'mem : r' ∈ m.map (fun p => p.2) :=
      (List.mem_insertionSort recordLe).mp hr'
    obtain ⟨kv, hkv, hkv2⟩ := List.mem_map.mp hr'mem
    have h1 : ((kv.2.get "name").bind Json.asStr) = some kv.1 := hnk kv hkv
    rw [hkv2, hr'name] at h1
    injection h1 with h1
    have h2 := lookupAssoc_of_mem_nodup m kv.1 kv.2 hkv hnd
    rw [← h1, hl] at h2
    injection h2 with h2
    rw [← hkv2, ← h2]
  | none =>
    apply seedByName_lookup_none
    intro r hr hrname
    have hr'mem : r ∈ m.map (fun p => p.2) :=
      (List.mem_insertionSort recordLe).mp hr
    obtain ⟨kv, hkv, hkv2⟩ := List.mem_map.mp hr'mem
    have h1 : ((kv.2.get "name").bind Json.asStr) = some kv.1 := hnk kv hkv
    rw [hkv2, hrname] at h1
    injection h1 with h1
    have h2 := lookupAssoc_of_mem_nodup m kv.1 kv.2 hkv hnd
    rw [← h1, hl] at h2
    cases h2

/-- Two duplicate-free association lists with identical lookups are
permutations of each other. -/
theorem assoc_perm_of_lookup_eq (m₁ m₂ : List (String × Json))
    (h1 : (m₁.map Prod.fst).Nodup) (h2 : (m₂.map Prod.fst).Nodup)
    (h : ∀ n, lookupAssoc m₁ n = lookupAssoc m₂ n) : m₁.Perm m₂ := by
  rw [List.perm_ext_iff_of_nodup (h1.of_map) (h2.of_map)]
  intro kv
  constructor
  · intro hm
    exact mem_of_lookupAssoc _ _ _
      ((h kv.1) ▸ lookupAssoc_of_mem_nodup _ _ _ hm h1)
  · intro hm
    exact mem_of_lookupAssoc _ _ _
      ((h kv.1).symm ▸ lookupAssoc_of_mem_nodup _ _ _ hm h2)

/-- Two name-keyed, duplicate-free maps with identical lookups serialize to
the same registry. -/
theorem serializeRegistry_eq_of_lookup_eq (m₁ m₂ : List (String × Json))
    (hk1 : NameKeyed m₁) (hn1 : (m₁.map Prod.fst).Nodup)
    (hk2 : NameKeyed m₂) (hn2 : (m₂.map Prod.fst).Nodup)
    (h : ∀ n, lookupAssoc m₁ n = lookupAssoc m₂ n) :
    serializeRegistry m₁ = serializeRegistry m₂ := by
  have hperm : (serializeRegistry m₁).Perm (serializeRegistry m₂) :=
    (List.perm_insertionSort recordLe _).trans
      (((assoc_perm_of_lookup_eq m₁ m₂ hn1 hn2 h).map (fun p => p.2)).trans
        (List.perm_insertionSort recordLe _).symm)
  exact List.eq_of_perm_of_sorted hperm
    (serializeRegistry_strict m₁ hk1 hn1) (serializeRegistry_strict m₂ hk2 hn2)

/-- A non-`.tgz` directory entry leaves the state untouched. -/
theorem process_package_not_tgz (extRoot : String)
    (parse : String → Except String Json) (clean repl : Bool)
    (st : PassState) (p : BundledFile) (ht : p.isTgz = false) :
    process_package extRoot parse clean repl st p = .ok st := by
  simp [process_package, ht]

/-- Characterization of a successful iteration on a `.tgz` package:
the archive opened, the manifest scan yielded a manifest with a usable
name, and the state's map gained that package's fresh record. -/
theorem process_package_ok_tgz (extRoot : String)
    (parse : String → Except String Json) (clean repl : Bool)
    (st : PassState) (p : BundledFile) (st' : PassState)
    (h : process_package extRoot parse clean repl st p = .ok st')
    (ht : p.isTgz = true) :
    ∃ manifest n, package_manifest parse p = some manifest ∧
      (manifest.index "name").asStr = some n ∧ p.openOk = true ∧
      ∃ origin, st'.byName = insertAssoc st.byName n (mkRecord manifest n origin) := by
  cases ho : p.openOk with
  | false => simp [process_package, ht, ho] at h
  | true =>
    cases hm : extract_extension_manifest parse p.stream with
    | error e => simp [process_package, ht, ho, hm] at h
    | ok mo =>
      cases mo with
      | none => simp [process_package, ht, ho, hm] at h
      | some manifest =>
        cases hn : (manifest.index "name").asStr with
        | none => simp [process_package, ht, ho, hm, hn] at h
        | some n =>
          refine ⟨manifest, n, by simp [package_manifest, hm], hn, rfl, ?_⟩
          simp only [process_package, ht, ho, hm, hn, Bool.not_true,
            Bool.false_eq_true, if_false] at h
          split at h
          · cases hu : unpack_archive p.stream with
            | error e => simp only [hu] at h; cases h
            | ok acts =>
              simp only [hu] at h
              cases h
              exact ⟨_, rfl⟩
          · cases h
            exact ⟨_, rfl⟩

/-- When the install decision for a `.tgz` package resolves to false, one
iteration leaves the filesystem and events untouched and only inserts the
record, with origin looked up in the current map. -/
theorem process_package_no_install (extRoot : String)
    (parse : String → Except String Json) (clean repl : Bool)
    (st : PassState) (p : BundledFile) (manifest : Json) (n : String)
    (ht : p.isTgz = true) (ho : p.openOk = true)
    (hm : extract_extension_manifest parse p.stream = .ok (some manifest))
    (hn : (manifest.index "name").asStr = some n)
    (hsi : should_install repl clean (dirExists st.fs n)
        (((manifest.index "version").asStr).getD "")
        ((read_installed_extension_version parse st.fs n).getD "")
        p.modified (read_installed_extension_modified st.fs n) = false) :
    process_package extRoot parse clean repl st p =
      .ok ⟨st.fs,
           insertAssoc st.byName n (mkRecord manifest n
             (((lookupAssoc st.byName n).bind fun ext =>
               (ext.get "origin").bind Json.asStr).getD (extRoot ++ "/" ++ n))),
           st.events⟩ := by
  simp [process_package, ht, ho, hm, hn, hsi]

/-- Every record of the serialized registry either was a value of the
initial map or is a freshly built record. -/
theorem serialize_fields (extRoot : String) (parse : String → Except String Json)
    (clean repl : Bool) (init : PassState) (ps : List BundledFile)
    (st : PassState) (hp : processAll extRoot parse clean repl init ps = .ok st)
    (hvals : ∀ kv ∈ init.byName, hasRegistryFields kv.2) :
    ∀ r ∈ serializeRegistry st.byName, hasRegistryFields r := by
  intro r hr
  have hmem : r ∈ st.byName.map (fun p => p.2) :=
    (List.mem_insertionSort recordLe).mp hr
  obtain ⟨kv, hkv, hkv2⟩ := List.mem_map.mp hmem
  rcases processAll_byName_from extRoot parse clean repl ps init st hp kv hkv with
    hin | ⟨p, _, _, _, m, o, hrec⟩
  · rw [← hkv2]
    exact hvals kv hin
  · rw [← hkv2, hrec]
    exact mkRecord_hasRegistryFields _ _ _

/-- Stability of one bundled package for a second run over the filesystem
state `fs1` left by a first run: its manifest scan yields a manifest with a
usable name, and the install decision over `fs1` resolves to false (either
replacements are disabled, or the directory exists and neither the version
check, the empty-version check nor the timestamp check fires). -/
def second_run_stable (parse : String → Except String Json) (repl : Bool)
    (fs1 : FS) (p : BundledFile) : Prop :=
  ∃ m n, package_manifest parse p = some m ∧ (m.index "name").asStr = some n ∧
    should_install repl false (dirExists fs1 n)
      (((m.index "version").asStr).getD "")
      ((read_installed_extension_version parse fs1 n).getD "")
      p.modified (read_installed_extension_modified fs1 n) = false

/-- The coupling invariant between the first run's evolving map `m₁`, the
second run's evolving map `m₂` and the first run's final map `F`: a name is
either still at its re-seeded value (the final first-run record), or both
runs have processed it, with the same manifest, the first run with some
origin and the second run with the origin read back from `F`. -/
def TwoRunInv (extRoot : String) (F : List (String × Json))
    (m₁ m₂ : List (String × Json)) : Prop :=
  ∀ n, lookupAssoc m₂ n = lookupAssoc F n ∨
    (∃ mf o₁, lookupAssoc m₁ n = some (mkRecord mf n o₁) ∧
      lookupAssoc m₂ n = some (mkRecord mf n
        (((lookupAssoc F n).bind fun ext =>
          (ext.get "origin").bind Json.asStr).getD (extRoot ++ "/" ++ n))))

theorem processAll_second_run (extRoot : String)
    (parse : String → Except String Json) (repl : Bool) (fs1 : FS)
    (F : List (String × Json)) :
    ∀ (ps : List BundledFile) (st₁ st₂ st₁' : PassState),
      processAll extRoot parse false repl st₁ ps = .ok st₁' →
      (∀ p ∈ ps, p.isTgz = true → second_run_stable parse repl fs1 p) →
      st₂.fs = fs1 →
      TwoRunInv extRoot F st₁.byName st₂.byName →
      ∃ st₂' : PassState,
        processAll extRoot parse false repl st₂ ps = .ok st₂' ∧
        st₂'.fs = st₂.fs ∧ st₂'.events = st₂.events ∧
        TwoRunInv extRoot F st₁'.byName st₂'.byName := by
  intro ps
  induction ps with
  | nil =>
    intro st₁ st₂ st₁' h hstable hfs hinv
    simp only [processAll] at h ⊢
    cases h
    exact ⟨st₂, rfl, rfl, rfl, hinv⟩
  | cons p ps ih =>
    intro st₁ st₂ st₁' h hstable hfs hinv
    simp only [processAll] at h
    cases hq : process_package extRoot parse false repl st₁ p with
    | error e => rw [hq] at h; cases h
    | ok st₁m =>
      rw [hq] at h
      cases ht : p.isTgz with
      | false =>
        have hnt := process_package_not_tgz extRoot parse false repl st₁ p ht
        rw [hnt] at hq
        injection hq with hq'
        obtain ⟨st₂', hps, hfs', hev', hinv'⟩ := ih st₁m st₂ st₁' h
          (fun q hqm hqt => hstable q (List.mem_cons_of_mem _ hqm) hqt) hfs
          (by rw [← hq']; exact hinv)
        refine ⟨st₂', ?_, hfs', hev', hinv'⟩
        simp only [processAll,
          process_package_not_tgz extRoot parse false repl st₂ p ht]
        exact hps
      | true =>
        obtain ⟨mf, n₀, hman, hname, hopen, o₁, hby₁⟩ :=
          process_package_ok_tgz extRoot parse false repl st₁ p st₁m hq ht
        obtain ⟨mf', n₀', hman', hname', hsi⟩ :=
          hstable p (List.mem_cons_self p ps) ht
        rw [hman] at hman'
        injection hman' with hmf
        subst hmf
        rw [hname] at hname'
        injection hname' with hn₀
        subst hn₀
        have hextract := extract_of_package_manifest parse p mf hman
        rw [← hfs] at hsi
        have hstep₂ := process_package_no_install extRoot parse false repl st₂ p
          mf n₀ ht hopen hextract hname hsi
        set o₂ := ((lookupAssoc st₂.byName n₀).bind fun ext =>
          (ext.get "origin").bind Json.asStr).getD (extRoot ++ "/" ++ n₀) with ho₂
        have ho₂F : o₂ = ((lookupAssoc F n₀).bind fun ext =>
            (ext.get "origin").bind Json.asStr).getD (extRoot ++ "/" ++ n₀) := by
          rcases hinv n₀ with hleft | ⟨mf₀, o₀, _, hright⟩
          · rw [ho₂, hleft]
          · rw [ho₂, hright]
            rfl
        have hinv' : TwoRunInv extRoot F st₁m.byName
            (insertAssoc st₂.byName n₀ (mkRecord mf n₀ o₂)) := by
          intro n
          by_cases hn : n = n₀
          · subst hn
            right
            refine ⟨mf, o₁, ?_, ?_⟩
            · rw [hby₁]
              exact lookupAssoc_insertAssoc_self _ _ _
            · rw [lookupAssoc_insertAssoc_self, ho₂F]
          · rcases hinv n with hleft | ⟨mf₀, o₀, hl1, hl2⟩
            · left
              rw [lookupAssoc_insertAssoc_ne _ _ _ _ hn]
              exact hleft
            · right
              exact ⟨mf₀, o₀,
                by rw [hby₁, lookupAssoc_insertAssoc_ne _ _ _ _ hn]; exact hl1,
                by rw [lookupAssoc_insertAssoc_ne _ _ _ _ hn]; exact hl2⟩
        obtain ⟨st₂', hps, hfs', hev', hinvf⟩ := ih st₁m
          ⟨st₂.fs, insertAssoc st₂.byName n₀ (mkRecord mf n₀ o₂), st₂.events⟩
          st₁' h (fun q hqm hqt => hstable q (List.mem_cons_of_mem _ hqm) hqt)
          hfs hinv'
        refine ⟨st₂', ?_, hfs', hev', hinvf⟩
        simp only [processAll, hstep₂]
        exact hps

end Setup

namespace Setup

/-! ### Claim-side (specification) definitions

These two follow the wording of the specification, to be compared with the
source-derived `parse_version`/`is_newer_version`. -/

/-- The version triple described by the spec: split on `'.'`, take at most
three segments, keep each segment's leading ASCII-digit run, default an
empty or unparseable run to `0`; missing segments are empty. -/
def versionTriple (v : String) : Nat × Nat × Nat :=
  let segs := (splitChar '.' v.data).take 3
  (parse_u64_or_zero (leadingDigits (segs.getD 0 [])),
   parse_u64_or_zero (leadingDigits (segs.getD 1 [])),
   parse_u64_or_zero (leadingDigits (segs.getD 2 [])))

/-- Lexicographic "strictly newer" on version triples, major then minor then
patch: true at the first differing segment where the bundled part is
greater, false when all three agree. -/
def lexNewer : Nat × Nat × Nat → Nat × Nat × Nat → Bool
  | (b1, b2, b3), (i1, i2, i3) =>
    if b1 ≠ i1 then decide (b1 > i1)
    else if b2 ≠ i2 then decide (b2 > i2)
    else if b3 ≠ i3 then decide (b3 > i3)
    else false

theorem parse_version_eq_triple (v : String) :
    parse_version v =
      [(versionTriple v).1, (versionTriple v).2.1, (versionTriple v).2.2] := by
  have h0 : parse_u64_or_zero (leadingDigits []) = 0 := by decide
  have key : ∀ (segs : List (List Char)) (i : Nat),
      (match segs.get? i with
        | some seg => parse_u64_or_zero (leadingDigits seg)
        | none => 0) = parse_u64_or_zero (leadingDigits (segs.getD i [])) := by
    intro segs i
    unfold List.getD
    cases h : segs.get? i <;> simp [h, h0]
  have hr : List.range 3 = [0, 1, 2] := by decide
  simp only [parse_version, versionTriple, hr, List.map_cons, List.map_nil, key]

/-- The per-claim "newer version" characterization. -/
theorem is_newer_version_eq_lexNewer (b i : String) :
    is_newer_version b i = lexNewer (versionTriple b) (versionTriple i) := by
  rw [is_newer_version, parse_version_eq_triple, parse_version_eq_triple]
  rcases versionTriple b with ⟨b1, b2, b3⟩
  rcases versionTriple i with ⟨i1, i2, i3⟩
  simp only [firstDiffGt, lexNewer]

end Setup

namespace SetupClaims

open Setup

/-- C3: `is_newer_version` parses each version string into a triple
(split on `'.'`, at most three segments, leading ASCII-digit runs, empty or
unparseable runs default to 0) and compares the triples lexicographically,
returning true at the first differing segment where the bundled part is
greater and false when all three agree; together with the five concrete
comparisons listed by the spec. -/
theorem C3_version_comparison :
    (∀ b i : String,
        is_newer_version b i = lexNewer (versionTriple b) (versionTriple i)) ∧
    is_newer_version "1.2.3" "1.2.3" = false ∧
    is_newer_version "2.0.0" "1.9.9" = true ∧
    is_newer_version "1.0" "1.0.0" = false ∧
    is_newer_version "" "0.0.1" = false ∧
    is_newer_version "1.0.0-beta" "0.9.0" = true :=
  ⟨is_newer_version_eq_lexNewer, by decide, by decide, by decide, by decide, by decide⟩

/-- C7: `is_newer_timestamp` is true exactly when both timestamps are known
and the bundled one is strictly greater, or the bundled one is known and the
installed one is unknown; otherwise false. -/
theorem C7_timestamp_comparison :
    ∀ bundled installed : Option Nat,
      is_newer_timestamp bundled installed = true ↔
        ((∃ tb ti, bundled = some tb ∧ installed = some ti ∧ ti < tb) ∨
          (∃ tb, bundled = some tb ∧ installed = none)) := by
  intro b i
  cases b <;> cases i <;> simp [is_newer_timestamp]

/-- C2: with replacements disabled `should_install` is false regardless of
every other input; otherwise it is true exactly when the pass is a clean
pass, or the extension directory does not exist, or the bundled version is
newer, or the bundled version is empty, or the bundled timestamp is
newer. -/
theorem C2_install_decision :
    ∀ (clean_up dir_exists : Bool) (bv iv : String) (bm im : Option Nat),
      should_install true clean_up dir_exists bv iv bm im = false ∧
      (should_install false clean_up dir_exists bv iv bm im = true ↔
        (clean_up = true ∨ dir_exists = false ∨ is_newer_version bv iv = true ∨
          bv = "" ∨ is_newer_timestamp bm im = true)) := by
  intro clean_up dir_exists bv iv bm im
  constructor
  · simp [should_install]
  · cases clean_up <;> cases dir_exists <;> simp [should_install] <;> tauto

/-- C4: during extraction, an entry with strictly more than one path
component has its first component stripped, the parents of the remainder
created and its content written to the remainder; an entry with at most one
component contributes nothing; entry errors aside, the pass performs exactly
the concatenation of these actions; on the spec's concrete paths,
`pkg/index.js` is written to `index.js` while `pkg/` and a bare `index.js`
are skipped; and on paths with a leading `CurDir` or `RootDir` component,
that component counts and is the one stripped: `./index.js` is written to
`index.js`, `./pkg/a.js` to `pkg/a.js` (the wrapper is not stripped), and
`/a/b.js` to `a/b.js`. -/
theorem C4_archive_unpacking :
    (∀ e : TarEntry, 1 < (pathComponents e.path).length →
        unpack_entry e =
          [UnpackAction.mkdirParent ((pathComponents e.path).drop 1).dropLast,
           UnpackAction.write ((pathComponents e.path).drop 1) e.content e.mtime]) ∧
    (∀ e : TarEntry, (pathComponents e.path).length ≤ 1 → unpack_entry e = []) ∧
    (∀ es : List TarEntry,
        unpack_archive (es.map Except.ok) = .ok (es.flatMap unpack_entry)) ∧
    pathComponents "pkg/index.js" = ["pkg", "index.js"] ∧
    (∀ c t, unpack_entry ⟨"pkg/index.js", c, t⟩ =
        [UnpackAction.mkdirParent [], UnpackAction.write ["index.js"] c t]) ∧
    (∀ c t, unpack_entry ⟨"pkg/", c, t⟩ = []) ∧
    (∀ c t, unpack_entry ⟨"index.js", c, t⟩ = []) ∧
    pathComponents "./index.js" = [".", "index.js"] ∧
    (∀ c t, unpack_entry ⟨"./index.js", c, t⟩ =
        [UnpackAction.mkdirParent [], UnpackAction.write ["index.js"] c t]) ∧
    pathComponents "./pkg/a.js" = [".", "pkg", "a.js"] ∧
    (∀ c t, unpack_entry ⟨"./pkg/a.js", c, t⟩ =
        [UnpackAction.mkdirParent ["pkg"],
         UnpackAction.write ["pkg", "a.js"] c t]) ∧
    pathComponents "/a/b.js" = ["/", "a", "b.js"] ∧
    (∀ c t, unpack_entry ⟨"/a/b.js", c, t⟩ =
        [UnpackAction.mkdirParent ["a"],
         UnpackAction.write ["a", "b.js"] c t]) ∧
    pathComponents "." = ["."] ∧
    (∀ c t, unpack_entry ⟨".", c, t⟩ = []) := by
  refine ⟨?_, ?_, ?_, by decide, ?_, ?_, ?_, by decide, ?_, by decide, ?_,
    by decide, ?_, by decide, ?_⟩
  · intro e h
    simp only [unpack_entry]
    rw [if_pos h]
  · intro e h
    simp only [unpack_entry]
    rw [if_neg (by omega)]
  · intro es
    induction es with
    | nil => rfl
    | cons e rest ih => simp [unpack_archive, ih]
  · intro c t
    have : pathComponents "pkg/index.js" = ["pkg", "index.js"] := by decide
    simp [unpack_entry, this]
  · intro c t
    have : pathComponents "pkg/" = ["pkg"] := by decide
    simp [unpack_entry, this]
  · intro c t
    have : pathComponents "index.js" = ["index.js"] := by decide
    simp [unpack_entry, this]
  · intro c t
    have : pathComponents "./index.js" = [".", "index.js"] := by decide
    simp [unpack_entry, this]
  · intro c t
    have : pathComponents "./pkg/a.js" = [".", "pkg", "a.js"] := by decide
    simp [unpack_entry, this]
  · intro c t
    have : pathComponents "/a/b.js" = ["/", "a", "b.js"] := by decide
    simp [unpack_entry, this]
  · intro c t
    have : pathComponents "." = ["."] := by decide
    simp [unpack_entry, this]

/-- A concrete JSON parse function used by concrete scenarios: the byte
string `"mc"` parses to a manifest named `foo`; everything else is invalid
JSON. -/
def parseFoo : String → Except String Json := fun s =>
  if s = "mc" then .ok (.obj [("name", .str "foo")]) else .error "invalid json"

/-- C5 fails on the code: the scan does not accept an arbitrary wrapper
directory.  An archive whose only entry is `foo/package.json` — a path of
the form `<dir>/package.json` with parseable content — yields `none`,
although the claim requires its parsed content to be returned and `none`
to occur only when no such entry exists. -/
theorem C5_counterexample :
    extract_extension_manifest parseFoo [.ok ⟨"foo/package.json", "mc", 0⟩] =
      .ok none ∧
    parseFoo "mc" = .ok (.obj [("name", .str "foo")]) ∧
    (Except.ok none : Except String (Option Json)) ≠
      .ok (some (.obj [("name", .str "foo")])) := by
  refine ⟨rfl, rfl, ?_⟩
  intro h
  simp at h

/-- C5 amended: the wrapper directory must be named exactly `package`.
`extract_extension_manifest` returns the parsed content of the first
readable entry whose path is `package/package.json` or `package.json`, and
returns `none` exactly when no readable entry has one of those two paths. -/
theorem C5_manifest_scan :
    ∀ (parse : String → Except String Json) (stream : TarStream),
      ((∀ e ∈ stream.filterMap Except.toOption,
          e.path ≠ "package/package.json" ∧ e.path ≠ "package.json") →
        extract_extension_manifest parse stream = .ok none) ∧
      (∀ e, (stream.filterMap Except.toOption).find?
            (fun e => e.path == "package/package.json" || e.path == "package.json") =
            some e →
        extract_extension_manifest parse stream = (parse e.content).map some) := by
  intro parse stream
  constructor
  · intro h
    have hn : (stream.filterMap Except.toOption).find?
        (fun e => e.path == "package/package.json" || e.path == "package.json") =
        none := by
      rw [List.find?_eq_none]
      intro e he
      have h1 := (h e he).1
      have h2 := (h e he).2
      simp [h1, h2]
    rw [extract_extension_manifest, hn]
  · intro e he
    rw [extract_extension_manifest, he]
    cases hpe : parse e.content <;> simp [hpe, Except.map]

theorem C5_manifest_scan_witness :
    extract_extension_manifest parseFoo [.ok ⟨"foo/package.json", "mc", 0⟩] =
      .ok none ∧
    extract_extension_manifest parseFoo [.ok ⟨"package/package.json", "mc", 0⟩] =
      .ok (some (.obj [("name", .str "foo")])) :=
  ⟨(C5_manifest_scan parseFoo [.ok ⟨"foo/package.json", "mc", 0⟩]).1 (by decide),
   ((C5_manifest_scan parseFoo [.ok ⟨"package/package.json", "mc", 0⟩]).2
      ⟨"package/package.json", "mc", 0⟩ (by decide)).trans rfl⟩

/-- C1 fails on the code: a single bundled `.tgz` whose archive cannot be
opened makes the whole pass return an error — it is not skipped, the loop
does not continue, and no registry is serialized. -/
theorem C1_counterexample :
    install_extensions "/ext" parseFoo
        ⟨false, false, false, none, [⟨true, false, [], none⟩]⟩ [] =
      .error "failed to open archive" ∧
    (install_extensions "/ext" parseFoo
        ⟨false, false, false, none, [⟨true, false, [], none⟩]⟩ []).isOk = false :=
  ⟨rfl, rfl⟩

/-- C1 amended: a recoverable-per-package failure (archive cannot be
opened, manifest scan fails, manifest missing, or manifest without a usable
string `name`) on any bundled `.tgz` package does not merely skip that
package: `install_extensions` aborts the whole pass with an error, and the
registry is not serialized. -/
theorem C1_per_package_failure_aborts :
    ∀ (extRoot : String) (parse : String → Except String Json)
      (inp : PassInput) (fs0 : FS) (p : BundledFile),
      p ∈ inp.preInstall → p.isTgz = true → package_fails parse p →
      ∃ msg, install_extensions extRoot parse inp fs0 = .error msg := by
  intro extRoot parse inp fs0 p hp htgz hf
  obtain ⟨msg, hmsg⟩ := processAll_error_of_mem_fails extRoot parse
    (inp.force || inp.is_clean_env) inp.replacements_disabled
    inp.preInstall
    (if inp.force || inp.is_clean_env then ⟨[], [], [FsEvent.removeAllExtensions]⟩
     else ⟨fs0, seedByName (load_extensions_list inp.regFile), []⟩)
    p hp htgz hf
  exact ⟨msg, by simp only [install_extensions, hmsg]⟩

theorem C1_per_package_failure_aborts_witness :
    (⟨true, false, [], none⟩ : BundledFile) ∈
        [(⟨true, false, [], none⟩ : BundledFile)] ∧
    (⟨true, false, [], none⟩ : BundledFile).isTgz = true ∧
    package_fails parseFoo ⟨true, false, [], none⟩ ∧
    ∃ msg, install_extensions "/ext" parseFoo
        ⟨false, false, false, none, [⟨true, false, [], none⟩]⟩ [] = .error msg :=
  ⟨List.mem_singleton.mpr rfl, rfl, Or.inl rfl,
   C1_per_package_failure_aborts "/ext" parseFoo
     ⟨false, false, false, none, [⟨true, false, [], none⟩]⟩ []
     ⟨true, false, [], none⟩ (List.mem_singleton.mpr rfl) rfl (Or.inl rfl)⟩

/-- C10: a registry file that exists but cannot be read, or whose content
is not a JSON array, is treated as an empty prior registry: the pass
behaves exactly as with no registry file, and any registry it writes
contains only records named after packages bundled in the current pass. -/
theorem C10_unreadable_registry_is_empty :
    ∀ (extRoot : String) (parse : String → Except String Json)
      (inp : PassInput) (fs0 : FS) (r : Option (Option (Option (List Json)))),
      r = some none ∨ r = some (some none) →
      load_extensions_list r = [] ∧
      install_extensions extRoot parse { inp with regFile := r } fs0 =
        install_extensions extRoot parse { inp with regFile := none } fs0 ∧
      (∀ reg fs' ev,
        install_extensions extRoot parse { inp with regFile := r } fs0 =
          .ok (reg, fs', ev) →
        ∀ rec ∈ reg, ∃ p ∈ inp.preInstall, p.isTgz = true ∧
          package_name parse p = some (recordName rec)) := by
  intro extRoot parse inp fs0 r hr
  have hload : load_extensions_list r = [] := by
    rcases hr with rfl | rfl <;> rfl
  refine ⟨hload, ?_, ?_⟩
  · simp only [install_extensions, hload]
    rfl
  · intro reg fs' ev h rec hrec
    simp only [install_extensions, hload] at h
    cases hp : processAll extRoot parse (inp.force || inp.is_clean_env)
        inp.replacements_disabled
        (if inp.force || inp.is_clean_env
         then ⟨[], [], [FsEvent.removeAllExtensions]⟩
         else ⟨fs0, seedByName [], []⟩) inp.preInstall with
    | error e => rw [hp] at h; cases h
    | ok st =>
      rw [hp] at h
      cases h
      obtain ⟨kv, hkv, hkv2⟩ : ∃ kv ∈ st.byName, kv.2 = rec := by
        have : rec ∈ st.byName.map (fun p => p.2) := by
          have := (List.mem_insertionSort recordLe).mp hrec
          simpa using this
        obtain ⟨kv, h1, h2⟩ := List.mem_map.mp this
        exact ⟨kv, h1, h2⟩
      rcases processAll_byName_from extRoot parse
          (inp.force || inp.is_clean_env) inp.replacements_disabled
          inp.preInstall _ st hp kv hkv with hseed | ⟨p, hpmem, hpt, hpn, m, o, hrec'⟩
      · exfalso
        rcases hr with rfl | rfl <;>
          · revert hseed
            cases inp.force <;> cases inp.is_clean_env <;> simp [seedByName]
      · refine ⟨p, hpmem, hpt, ?_⟩
        rw [hpn]
        congr 1
        rw [← hkv2, hrec']
        rfl

theorem C10_unreadable_registry_is_empty_witness :
    load_extensions_list (some (some none)) = [] ∧
    install_extensions "/ext" parseFoo ⟨false, false, false, some (some none), []⟩ [] =
      install_extensions "/ext" parseFoo ⟨false, false, false, none, []⟩ [] := by
  have h := C10_unreadable_registry_is_empty "/ext" parseFoo
    ⟨false, false, false, none, []⟩ [] (some (some none)) (Or.inr rfl)
  exact ⟨h.1, h.2.1⟩

theorem C4_archive_unpacking_witness :
    1 < (pathComponents "wrapper/sub/file.js").length ∧
    unpack_entry ⟨"wrapper/sub/file.js", "body", 7⟩ =
      [UnpackAction.mkdirParent ["sub"],
       UnpackAction.write ["sub", "file.js"] "body" 7] :=
  ⟨by decide, C4_archive_unpacking.1 ⟨"wrapper/sub/file.js", "body", 7⟩ (by decide)⟩

/-- A prior-registry record `{"name": "a", "x": "1"}`. -/
def rA1 : Json := .obj [("name", .str "a"), ("x", .str "1")]

/-- A prior-registry record `{"name": "a", "x": "2"}`. -/
def rA2 : Json := .obj [("name", .str "a"), ("x", .str "2")]

/-- C8 fails on the code: when the previously persisted registry holds two
records with the same name `a` and no package is bundled, the seeding of the
name-keyed map keeps only the later record, so the earlier one — whose name
matches no bundled package — does not appear in the written registry. -/
theorem C8_counterexample :
    install_extensions "/ext" parseFoo
        ⟨false, false, false, some (some (some [rA1, rA2])), []⟩ [] =
      .ok ([rA2], [], []) ∧
    (rA1.get "name").bind Json.asStr = some "a" ∧
    rA1 ∉ ([rA2] : List Json) := by
  refine ⟨rfl, rfl, ?_⟩
  intro h
  rcases List.mem_singleton.mp h with h
  simp [rA1, rA2] at h

/-- C8 amended: when `clean_up` is false, every record of the previously
persisted registry whose string name is carried by no other prior record
and matches no bundled package's manifest name appears unchanged in the
registry written at the end of the pass. -/
theorem C8_untouched_records_persist :
    ∀ (extRoot : String) (parse : String → Except String Json)
      (inp : PassInput) (fs0 : FS) (reg : List Json) (fs' : FS)
      (ev : List FsEvent) (r : Json) (n : String),
      inp.force = false → inp.is_clean_env = false →
      install_extensions extRoot parse inp fs0 = .ok (reg, fs', ev) →
      r ∈ load_extensions_list inp.regFile →
      (r.get "name").bind Json.asStr = some n →
      (∀ r' ∈ load_extensions_list inp.regFile,
          (r'.get "name").bind Json.asStr = some n → r' = r) →
      (∀ p ∈ inp.preInstall, p.isTgz = true → package_name parse p ≠ some n) →
      r ∈ reg := by
  intro extRoot parse inp fs0 reg fs' ev r n hforce hclean h hr hname huniq hnone
  simp only [install_extensions, hforce, hclean, Bool.or_self,
    Bool.false_eq_true, if_false] at h
  cases hp : processAll extRoot parse false inp.replacements_disabled
      ⟨fs0, seedByName (load_extensions_list inp.regFile), []⟩ inp.preInstall with
  | error e => rw [hp] at h; cases h
  | ok st =>
    rw [hp] at h
    cases h
    have hseed : lookupAssoc (seedByName (load_extensions_list inp.regFile)) n =
        some r :=
      seedByName_lookup_unique _ r n hr hname huniq
    have hfinal : lookupAssoc st.byName n = some r := by
      rw [processAll_lookup_preserved extRoot parse false inp.replacements_disabled
        n inp.preInstall _ st hnone hp]
      exact hseed
    have hmem : (n, r) ∈ st.byName := mem_of_lookupAssoc _ _ _ hfinal
    exact (List.mem_insertionSort recordLe).mpr
      (List.mem_map.mpr ⟨(n, r), hmem, rfl⟩)

theorem C8_untouched_records_persist_witness :
    install_extensions "/ext" parseFoo
        ⟨false, false, false, some (some (some [rA1])), []⟩ [] =
      .ok ([rA1], [], []) ∧
    rA1 ∈ ([rA1] : List Json) := by
  refine ⟨rfl, ?_⟩
  exact C8_untouched_records_persist "/ext" parseFoo
    ⟨false, false, false, some (some (some [rA1])), []⟩ [] [rA1] [] [] rA1 "a"
    rfl rfl rfl (List.mem_singleton.mpr rfl) rfl
    (fun r' hr' _ => List.mem_singleton.mp hr')
    (fun p hp => absurd hp (List.not_mem_nil p))

/-- A prior-registry record `{"name": "x"}` carrying no other field. -/
def rX : Json := .obj [("name", .str "x")]

/-- C6 fails on the code as universally stated: a prior registry may hold a
record with a string name but none of the other six fields; with no bundled
packages, a completed pass writes that record back unchanged, so the
written registry contains a record without `url`. -/
theorem C6_counterexample :
    install_extensions "/ext" parseFoo
        ⟨false, false, false, some (some (some [rX])), []⟩ [] =
      .ok ([rX], [], []) ∧
    (rX.get "url").isSome = false :=
  ⟨rfl, rfl⟩

/-- C6 amended: after every completed pass the written registry is strictly
ascending by name under the byte-order comparison — in particular no two
records share a name — and, provided every record of the previously
persisted registry carried the seven fields `url`, `name`, `origin`,
`active`, `description`, `version`, `productName`, every record of the
written registry carries them (freshly processed records always do; records
carried over from a prior registry keep exactly the fields they had). -/
theorem C6_registry_shape :
    ∀ (extRoot : String) (parse : String → Except String Json)
      (inp : PassInput) (fs0 : FS) (reg : List Json) (fs' : FS)
      (ev : List FsEvent),
      install_extensions extRoot parse inp fs0 = .ok (reg, fs', ev) →
      reg.Pairwise (fun a b =>
        strLe (recordName a) (recordName b) = true ∧
        recordName a ≠ recordName b) ∧
      ((∀ r ∈ load_extensions_list inp.regFile, hasRegistryFields r) →
        ∀ r ∈ reg, hasRegistryFields r) := by
  intro extRoot parse inp fs0 reg fs' ev h
  simp only [install_extensions] at h
  cases hp : processAll extRoot parse (inp.force || inp.is_clean_env)
      inp.replacements_disabled
      (if (inp.force || inp.is_clean_env) = true
       then ⟨[], [], [FsEvent.removeAllExtensions]⟩
       else ⟨fs0, seedByName (load_extensions_list inp.regFile), []⟩)
      inp.preInstall with
  | error e => rw [hp] at h; cases h
  | ok st =>
    rw [hp] at h
    cases h
    constructor
    · apply serialize_shape extRoot parse _ _ _ _ _ hp
      · cases hb : (inp.force || inp.is_clean_env) with
        | false =>
          simp only [hb, Bool.false_eq_true, if_false]
          exact seedByName_nameKeyed _
        | true =>
          simp only [hb, if_true]
          exact fun kv hkv => absurd hkv (List.not_mem_nil kv)
      · cases hb : (inp.force || inp.is_clean_env) with
        | false =>
          simp only [hb, Bool.false_eq_true, if_false]
          exact seedByName_keys_nodup _
        | true =>
          simp only [hb, if_true]
          exact List.nodup_nil
    · intro hprior
      apply serialize_fields extRoot parse _ _ _ _ _ hp
      cases hb : (inp.force || inp.is_clean_env) with
      | false =>
        simp only [hb, Bool.false_eq_true, if_false]
        intro kv hkv
        exact hprior kv.2 (seedByName_values_mem _ kv hkv)
      | true =>
        simp only [hb, if_true]
        exact fun kv hkv => absurd hkv (List.not_mem_nil kv)

theorem C6_registry_shape_witness :
    ∃ reg fs' ev,
      install_extensions "/ext" parseFoo
          ⟨false, false, false, none,
           [⟨true, true, [.ok ⟨"package/package.json", "mc", 5⟩], none⟩]⟩ [] =
        .ok (reg, fs', ev) ∧
      reg.Pairwise (fun a b =>
        strLe (recordName a) (recordName b) = true ∧
        recordName a ≠ recordName b) ∧
      (∀ r ∈ reg, hasRegistryFields r) := by
  refine ⟨_, _, _, rfl, ?_, ?_⟩
  · exact (C6_registry_shape "/ext" parseFoo
      ⟨false, false, false, none,
       [⟨true, true, [.ok ⟨"package/package.json", "mc", 5⟩], none⟩]⟩ [] _ _ _ rfl).1
  · exact (C6_registry_shape "/ext" parseFoo
      ⟨false, false, false, none,
       [⟨true, true, [.ok ⟨"package/package.json", "mc", 5⟩], none⟩]⟩ [] _ _ _ rfl).2
      (fun r hr => absurd hr (List.not_mem_nil r))

/-- C9 fails on the code as universally stated: with the global flags
unchanged between runs but the clean flag set (`force`), the second run
removes the whole extensions root and recreates the extension directory —
even though the registry file is byte-identical both times. -/
theorem C9_counterexample :
    ∃ reg1 fs1 ev1 reg2 fs2 ev2,
      install_extensions "/ext" parseFoo
          ⟨true, false, false, none,
           [⟨true, true, [.ok ⟨"package/package.json", "mc", 5⟩], some 10⟩]⟩ [] =
        .ok (reg1, fs1, ev1) ∧
      install_extensions "/ext" parseFoo
          ⟨true, false, false, some (some (some reg1)),
           [⟨true, true, [.ok ⟨"package/package.json", "mc", 5⟩], some 10⟩]⟩ fs1 =
        .ok (reg2, fs2, ev2) ∧
      reg2 = reg1 ∧
      FsEvent.removeAllExtensions ∈ ev2 ∧
      FsEvent.createDir "foo" ∈ ev2 := by
  refine ⟨_, _, _, _, _, _, rfl, rfl, rfl, ?_, ?_⟩ <;> decide

/-- C9 amended: with `clean_up` false in both runs and every bundled
package stable for the second run (its manifest has a usable name, and over
the filesystem left by the first run the install decision resolves to
false — in particular the bundled version is neither newer than nor empty
against the installed descriptor, and the archive's timestamp is not
newer), re-running the pass on the first run's outputs yields the identical
registry value (hence a byte-identical file), leaves the filesystem
unchanged, and performs no directory removal or creation at all. -/
theorem C9_second_run_is_noop :
    ∀ (extRoot : String) (parse : String → Except String Json)
      (inp : PassInput) (fs0 : FS) (reg1 : List Json) (fs1 : FS)
      (ev1 : List FsEvent),
      inp.force = false → inp.is_clean_env = false →
      install_extensions extRoot parse inp fs0 = .ok (reg1, fs1, ev1) →
      (∀ p ∈ inp.preInstall, p.isTgz = true →
        second_run_stable parse inp.replacements_disabled fs1 p) →
      install_extensions extRoot parse
        { inp with regFile := some (some (some reg1)) } fs1 =
        .ok (reg1, fs1, []) := by
  intro extRoot parse inp fs0 reg1 fs1 ev1 hforce hclean h hstable
  simp only [install_extensions, hforce, hclean, Bool.or_self,
    Bool.false_eq_true, if_false] at h ⊢
  cases hp₁ : processAll extRoot parse false inp.replacements_disabled
      ⟨fs0, seedByName (load_extensions_list inp.regFile), []⟩
      inp.preInstall with
  | error e => rw [hp₁] at h; cases h
  | ok st₁' =>
    rw [hp₁] at h
    cases h
    obtain ⟨hk1, hn1⟩ := processAll_nameKeyed_nodup extRoot parse false
      inp.replacements_disabled inp.preInstall
      ⟨fs0, seedByName (load_extensions_list inp.regFile), []⟩ st₁' hp₁
      (seedByName_nameKeyed _) (seedByName_keys_nodup _)
    have hinv0 : TwoRunInv extRoot st₁'.byName
        (seedByName (load_extensions_list inp.regFile))
        (seedByName (serializeRegistry st₁'.byName)) :=
      fun n => Or.inl (seedByName_serialize_lookup st₁'.byName hk1 hn1 n)
    obtain ⟨st₂', hps, hfs', hev', hinvf⟩ := processAll_second_run extRoot parse
      inp.replacements_disabled st₁'.fs st₁'.byName inp.preInstall
      ⟨fs0, seedByName (load_extensions_list inp.regFile), []⟩
      ⟨st₁'.fs, seedByName (serializeRegistry st₁'.byName), []⟩
      st₁' hp₁ hstable rfl hinv0
    simp only [load_extensions_list]
    rw [hps]
    have hlook : ∀ n, lookupAssoc st₂'.byName n = lookupAssoc st₁'.byName n := by
      intro n
      rcases hinvf n with h1 | ⟨mf, o₁, hl1, hl2⟩
      · exact h1
      · rw [hl2, hl1]
        rfl
    obtain ⟨hk2, hn2⟩ := processAll_nameKeyed_nodup extRoot parse false
      inp.replacements_disabled inp.preInstall
      ⟨st₁'.fs, seedByName (serializeRegistry st₁'.byName), []⟩ st₂' hps
      (seedByName_nameKeyed _) (seedByName_keys_nodup _)
    have hreg : serializeRegistry st₂'.byName = serializeRegistry st₁'.byName :=
      serializeRegistry_eq_of_lookup_eq _ _ hk2 hn2 hk1 hn1 hlook
    show Except.ok (serializeRegistry st₂'.byName, st₂'.fs, st₂'.events) =
      Except.ok (serializeRegistry st₁'.byName, st₁'.fs, [])
    rw [hreg, hfs', hev']

/-- A concrete parse function whose only valid content is a manifest named
`a` at version `1.0.0`. -/
def parseVer : String → Except String Json := fun s =>
  if s = "mc9" then
    .ok (.obj [("name", .str "a"), ("version", .str "1.0.0")])
  else .error "invalid json"

theorem C9_second_run_is_noop_witness :
    ∃ reg1 fs1 ev1,
      install_extensions "/ext" parseVer
          ⟨false, false, false, none,
           [⟨true, true, [.ok ⟨"package/package.json", "mc9", 5⟩], none⟩]⟩ [] =
        .ok (reg1, fs1, ev1) ∧
      install_extensions "/ext" parseVer
          ⟨false, false, false, some (some (some reg1)),
           [⟨true, true, [.ok ⟨"package/package.json", "mc9", 5⟩], none⟩]⟩ fs1 =
        .ok (reg1, fs1, []) := by
  refine ⟨_, _, _, rfl, ?_⟩
  apply C9_second_run_is_noop "/ext" parseVer
    ⟨false, false, false, none,
     [⟨true, true, [.ok ⟨"package/package.json", "mc9", 5⟩], none⟩]⟩ [] _ _ _
    rfl rfl rfl
  intro p hp htgz
  rcases List.mem_singleton.mp hp with rfl
  exact ⟨.obj [("name", .str "a"), ("version", .str "1.0.0")], "a", rfl, rfl, rfl⟩

end SetupClaims
